import Mathlib

/-!
Verification of the QuantMarket-Lab analysis engine
(`src/analysis_engine.py`, with the `Direction` classification from
`2_data_cleaning.py`).

Dates are modelled as natural numbers counting days since 1970-01-01
(a Thursday), so the weekday name of a date is determined by its value
modulo 7; prices and point values are rational numbers; a pandas
DataFrame row becomes a record, and a DataFrame a list of records in
row order.
-/

namespace QuantMarketLab

/-- Weekday names indexed from the epoch 1970-01-01, which was a Thursday. -/
def dayNames : List String :=
  ["Thursday", "Friday", "Saturday", "Sunday", "Monday", "Tuesday", "Wednesday"]

/-- Model of `Date.dt.day_name()`: the English weekday name of a date
given as a count of days since 1970-01-01. -/
def dayName (d : Nat) : String := dayNames.getD (d % 7) ""

/-- One validated input row (a cleaned OHLC bar): columns `Date`, `Open`,
`High`, `Low`, `Close`, `Direction` of the processed CSV. -/
structure PriceBar where
  Date : Nat
  Open : ℚ
  High : ℚ
  Low : ℚ
  Close : ℚ
  Direction : String
deriving DecidableEq

/-- One enriched output row of `run_analysis`: all input columns plus
`Day_Name`, `Raw_Points`, `Points_Display` and `streak_group`. -/
structure AnalyzedBar where
  Date : Nat
  Open : ℚ
  High : ℚ
  Low : ℚ
  Close : ℚ
  Direction : String
  Day_Name : String
  Raw_Points : ℚ
  Points_Display : ℚ
  streak_group : Nat
deriving DecidableEq

/-- Step 5 of `clean_and_validate_data` in `2_data_cleaning.py`: the
`Direction` label is `"Break Even"` by default, overwritten with `"UP"`
where `Close > Open` and with `"DOWN"` where `Close < Open`. -/
def direction_of (o c : ℚ) : String :=
  if c > o then "UP" else if c < o then "DOWN" else "Break Even"

/-- The per-row column computations of `run_analysis`:
`Day_Name = Date.dt.day_name()`, `Raw_Points = Close - Open`,
`Points_Display = Raw_Points * point_multiplier`, and the row's
`streak_group` value `g`. -/
def mkRow (m : ℚ) (b : PriceBar) (g : Nat) : AnalyzedBar :=
  { Date := b.Date
    Open := b.Open
    High := b.High
    Low := b.Low
    Close := b.Close
    Direction := b.Direction
    Day_Name := dayName b.Date
    Raw_Points := b.Close - b.Open
    Points_Display := (b.Close - b.Open) * m
    streak_group := g }

/-- The tail of the streak computation
`(Direction != Direction.shift()).cumsum()`: `prev` is the direction of
the immediately preceding row and `g` its streak counter; the counter is
incremented iff the current direction differs from `prev`. -/
def enrichFrom (m : ℚ) (prev : String) (g : Nat) : List PriceBar → List AnalyzedBar
  | [] => []
  | b :: bs =>
      let g2 := if b.Direction ≠ prev then g + 1 else g
      mkRow m b g2 :: enrichFrom m b.Direction g2 bs

/-- The enriched table built by `run_analysis`: the first row compares
its direction against `shift()`'s missing value, which always counts as
a change, so its `streak_group` is `1`; the rest follow `enrichFrom`. -/
def enrichRows (m : ℚ) : List PriceBar → List AnalyzedBar
  | [] => []
  | b :: bs => mkRow m b 1 :: enrichFrom m b.Direction 1 bs

/-- Model of `groupby('streak_group')['Direction'].agg(['first', 'size'])`:
for each distinct `streak_group` value, the `Direction` of the first row
of that group and the number of rows of that group. -/
def groupFirstSize (rows : List AnalyzedBar) : List (String × Nat) :=
  ((rows.map fun r => r.streak_group).dedup).map fun k =>
    (((rows.filter fun r => r.streak_group = k).head?.map fun r => r.Direction).getD "",
     (rows.filter fun r => r.streak_group = k).length)

/-- Model of `streaks[streaks['first'] == d]['size'].max()` together with
the `0 if pd.isna(...) else ...` guard: the maximum group size among
groups whose direction is `d`, or `0` when there is none. -/
def longestStreakFor (d : String) (streaks : List (String × Nat)) : Nat :=
  ((streaks.filter fun p => p.1 = d).map fun p => p.2).foldr max 0

/-- The `summary_stats` dictionary assembled by `run_analysis`. -/
structure SummaryStats where
  total_days : Nat
  up_days : Nat
  down_days : Nat
  break_even_days : Int
  up_pct : ℚ
  down_pct : ℚ
  break_even_pct : ℚ
  total_up_points_display : ℚ
  total_down_points_display : ℚ
  net_points_display : ℚ
  longest_up_streak : Nat
  longest_down_streak : Nat
  longest_break_even_streak : Nat
  point_multiplier : ℚ
  point_decimals : Nat
  actual_start_date : Nat
  actual_end_date : Nat
deriving DecidableEq

/-- The summary-statistics block of `run_analysis` over the enriched
rows: counts by exact `Direction` equality, `break_even_days` derived by
subtraction, zero-guarded percentages, point sums (`.abs().sum()` for
DOWN rows), longest streaks from the group aggregation, echoed
configuration, and min/max dates. -/
def summaryOf (m : ℚ) (pdec : Nat) (rows : List AnalyzedBar) : SummaryStats :=
  let total_days := rows.length
  let up_days := (rows.filter fun r => r.Direction = "UP").length
  let down_days := (rows.filter fun r => r.Direction = "DOWN").length
  let break_even_days : Int := (total_days : Int) - up_days - down_days
  let streaks := groupFirstSize rows
  { total_days := total_days
    up_days := up_days
    down_days := down_days
    break_even_days := break_even_days
    up_pct := if total_days > 0 then ((up_days : ℚ) / total_days) * 100 else 0
    down_pct := if total_days > 0 then ((down_days : ℚ) / total_days) * 100 else 0
    break_even_pct := if total_days > 0 then ((break_even_days : ℚ) / total_days) * 100 else 0
    total_up_points_display :=
      ((rows.filter fun r => r.Direction = "UP").map fun r => r.Points_Display).sum
    total_down_points_display :=
      ((rows.filter fun r => r.Direction = "DOWN").map fun r => |r.Points_Display|).sum
    net_points_display := (rows.map fun r => r.Points_Display).sum
    longest_up_streak := longestStreakFor "UP" streaks
    longest_down_streak := longestStreakFor "DOWN" streaks
    longest_break_even_streak := longestStreakFor "Break Even" streaks
    point_multiplier := m
    point_decimals := pdec
    actual_start_date := ((rows.map fun r => r.Date).min?).getD 0
    actual_end_date := ((rows.map fun r => r.Date).max?).getD 0 }

/-- `run_analysis(df, point_multiplier, point_decimals)`: empty input
returns an empty table and the empty dictionary (modelled as `none`);
otherwise the enriched table and its summary statistics. -/
def run_analysis (m : ℚ) (pdec : Nat) (bars : List PriceBar) :
    List AnalyzedBar × Option SummaryStats :=
  if bars.isEmpty then ([], none)
  else
    let rows := enrichRows m bars
    (rows, some (summaryOf m pdec rows))

/-- `days_order` of `calculate_day_of_week_distribution`. -/
def days_order : List String := ["Monday", "Tuesday", "Wednesday", "Thursday", "Friday"]

/-- `directions_order` of `calculate_day_of_week_distribution`. -/
def directions_order : List String := ["UP", "DOWN", "Break Even"]

/-- The reindexed cross-tabulation of `calculate_day_of_week_distribution`:
`value_counts().unstack(fill_value=0)` followed by the two `reindex`
calls leaves, for each day of `days_order` and direction of
`directions_order` in those fixed orders, the number of rows with that
`Day_Name` and that `Direction` (0 when the combination is absent);
rows and columns outside the two fixed label lists are dropped. -/
def distTable (rows : List AnalyzedBar) : List (List Nat) :=
  days_order.map fun d =>
    directions_order.map fun e =>
      (rows.filter fun r => r.Day_Name = d ∧ r.Direction = e).length

/-- `calculate_day_of_week_distribution`: an empty input returns the
empty DataFrame (modelled as `none`) before any reindexing; otherwise
the fixed-shape table. -/
def calculate_day_of_week_distribution (rows : List AnalyzedBar) :
    Option (List (List Nat)) :=
  if rows.isEmpty then none else some (distTable rows)

/-- Sum of all cells of a distribution table. -/
def sumCells (t : List (List Nat)) : Nat := (t.map List.sum).sum

/-- Specification-side notion of maximal consecutive runs: `runLengthsAux d n ds`
extends a current run of direction `d` and length `n` through `ds`. -/
def runLengthsAux (d : String) (n : Nat) : List String → List (String × Nat)
  | [] => [(d, n)]
  | e :: es => if e = d then runLengthsAux d (n + 1) es else (d, n) :: runLengthsAux e 1 es

/-- Maximal consecutive runs of equal direction labels, in order, with
their lengths. -/
def runLengths : List String → List (String × Nat)
  | [] => []
  | d :: ds => runLengthsAux d 1 ds

/-- Specification-side longest streak: the maximum length of a maximal
consecutive run of direction `d`, or `0` when there is none. -/
def maxStreakLen (d : String) (ds : List String) : Nat :=
  (((runLengths ds).filter fun p => p.1 = d).map fun p => p.2).foldr max 0

/-- Relation between a row and its successor asserted by the streak
recurrence: the successor's `streak_group` is the predecessor's plus one
exactly when the direction changes. -/
def streakStep (a b : AnalyzedBar) : Prop :=
  b.streak_group = if b.Direction ≠ a.Direction then a.streak_group + 1 else a.streak_group

lemma run_analysis_eq (m : ℚ) (pdec : Nat) (bars : List PriceBar) (h : bars ≠ []) :
    run_analysis m pdec bars =
      (enrichRows m bars, some (summaryOf m pdec (enrichRows m bars))) := by
  simp [run_analysis, h]

lemma enrichFrom_map {α : Type} (m : ℚ) (f : AnalyzedBar → α) (F : PriceBar → α)
    (hf : ∀ b g, f (mkRow m b g) = F b) (bs : List PriceBar) :
    ∀ (prev : String) (g : Nat), (enrichFrom m prev g bs).map f = bs.map F := by
  induction bs with
  | nil => intro prev g; rfl
  | cons b bs ih => intro prev g; simp [enrichFrom, hf, ih]

lemma enrichRows_map {α : Type} (m : ℚ) (f : AnalyzedBar → α) (F : PriceBar → α)
    (hf : ∀ b g, f (mkRow m b g) = F b) (bars : List PriceBar) :
    (enrichRows m bars).map f = bars.map F := by
  cases bars with
  | nil => rfl
  | cons b bs => simp [enrichRows, hf, enrichFrom_map m f F hf bs]

lemma enrichRows_length (m : ℚ) (bars : List PriceBar) :
    (enrichRows m bars).length = bars.length := by
  have h := enrichRows_map m (fun r => r.Direction) (fun b => b.Direction)
    (fun b g => rfl) bars
  have h1 : ((enrichRows m bars).map fun r => r.Direction).length =
      ((bars.map fun b => b.Direction)).length := by rw [h]
  simpa using h1

lemma chain'_enrichFrom (m : ℚ) (bs : List PriceBar) :
    ∀ r : AnalyzedBar,
      List.Chain' streakStep (r :: enrichFrom m r.Direction r.streak_group bs) := by
  induction bs with
  | nil => intro r; exact List.chain'_singleton r
  | cons b bs ih =>
      intro r
      have hstep : streakStep r (mkRow m b
          (if b.Direction ≠ r.Direction then r.streak_group + 1 else r.streak_group)) := by
        simp [streakStep, mkRow]
      have htail := ih (mkRow m b
        (if b.Direction ≠ r.Direction then r.streak_group + 1 else r.streak_group))
      exact List.chain'_cons.mpr ⟨hstep, htail⟩

lemma chain'_enrichRows (m : ℚ) (bars : List PriceBar) :
    List.Chain' streakStep (enrichRows m bars) := by
  cases bars with
  | nil => simp [enrichRows]
  | cons b bs => exact chain'_enrichFrom m bs (mkRow m b 1)

lemma pairwise_streak_le (m : ℚ) (bars : List PriceBar) :
    List.Pairwise (fun a b : AnalyzedBar => a.streak_group ≤ b.streak_group)
      (enrichRows m bars) := by
  haveI : IsTrans AnalyzedBar (fun a b : AnalyzedBar => a.streak_group ≤ b.streak_group) :=
    ⟨fun a b c hab hbc => Nat.le_trans hab hbc⟩
  refine List.chain'_iff_pairwise.mp ?_
  refine (chain'_enrichRows m bars).imp ?_
  intro a b hab
  rw [hab]
  split <;> omega

lemma streak_ge (m : ℚ) (bs : List PriceBar) :
    ∀ (prev : String) (g : Nat), ∀ r ∈ enrichFrom m prev g bs, g ≤ r.streak_group := by
  induction bs with
  | nil => intro prev g r hr; exact absurd hr (List.not_mem_nil r)
  | cons b bs ih =>
      intro prev g r hr
      simp only [enrichFrom, List.mem_cons] at hr
      rcases hr with h | h
      · subst h; simp only [mkRow]; split <;> omega
      · have := ih b.Direction _ r h
        split at this <;> omega

lemma dedup_replicate_append {α : Type} [DecidableEq α] (a : α) (ks : List α)
    (h : a ∉ ks) : ∀ n : Nat, (List.replicate (n + 1) a ++ ks).dedup = a :: ks.dedup := by
  intro n
  induction n with
  | zero =>
      have : a ∉ ks.dedup := fun hm => h (List.mem_dedup.mp hm)
      simpa [List.replicate] using List.dedup_cons_of_not_mem h
  | succ n ih =>
      have hmem : a ∈ List.replicate (n + 1) a ++ ks := by
        exact List.mem_append_left ks (by simp [List.mem_replicate])
      calc (List.replicate (n + 1 + 1) a ++ ks).dedup
          = (a :: (List.replicate (n + 1) a ++ ks)).dedup := by
            simp [List.replicate_succ]
        _ = (List.replicate (n + 1) a ++ ks).dedup := List.dedup_cons_of_mem hmem
        _ = a :: ks.dedup := ih

lemma groupFirstSize_append (pre sfx : List AnalyzedBar) (g : Nat) (d : String)
    (hne : pre ≠ [])
    (hpre : ∀ r ∈ pre, r.streak_group = g ∧ r.Direction = d)
    (hsfx : ∀ r ∈ sfx, g < r.streak_group) :
    groupFirstSize (pre ++ sfx) = (d, pre.length) :: groupFirstSize sfx := by
  have hkeys : (pre.map fun r => r.streak_group) = List.replicate pre.length g := by
    refine List.eq_replicate_iff.mpr ⟨by simp, ?_⟩
    intro k hk
    rcases List.mem_map.mp hk with ⟨r, hr, hrk⟩
    rw [← hrk]; exact (hpre r hr).1
  have hgnot : g ∉ sfx.map fun r => r.streak_group := by
    intro hm
    rcases List.mem_map.mp hm with ⟨r, hr, hrk⟩
    exact absurd hrk.symm (Nat.ne_of_lt (hsfx r hr))
  obtain ⟨r0, pre', rfl⟩ : ∃ r0 pre', pre = r0 :: pre' := by
    cases pre with
    | nil => exact absurd rfl hne
    | cons r0 pre' => exact ⟨r0, pre', rfl⟩
  have hdedup : (((r0 :: pre') ++ sfx).map fun r => r.streak_group).dedup
      = g :: (sfx.map fun r => r.streak_group).dedup := by
    rw [List.map_append, hkeys]
    have : (r0 :: pre').length = pre'.length + 1 := by simp
    rw [this]
    exact dedup_replicate_append g _ hgnot pre'.length
  have hfilter_pre : ((r0 :: pre') ++ sfx).filter (fun r => r.streak_group = g)
      = r0 :: pre' := by
    rw [List.filter_append]
    have h1 : (r0 :: pre').filter (fun r => r.streak_group = g) = r0 :: pre' :=
      List.filter_eq_self.mpr (fun r hr => by simp [(hpre r hr).1])
    have h2 : sfx.filter (fun r => r.streak_group = g) = [] :=
      List.filter_eq_nil_iff.mpr (fun r hr => by simp [Nat.ne_of_gt (hsfx r hr)])
    rw [h1, h2, List.append_nil]
  unfold groupFirstSize
  rw [hdedup, List.map_cons]
  have hhead :
      (((((r0 :: pre') ++ sfx).filter fun r => r.streak_group = g).head?.map
          fun r => r.Direction).getD "",
        (((r0 :: pre') ++ sfx).filter fun r => r.streak_group = g).length)
      = (d, (r0 :: pre').length) := by
    rw [hfilter_pre]
    have : r0.Direction = d := (hpre r0 (by simp)).2
    simp [this]
  have htail : ((sfx.map fun r => r.streak_group).dedup.map fun k =>
        (((((r0 :: pre') ++ sfx).filter fun r => r.streak_group = k).head?.map
            fun r => r.Direction).getD "",
          (((r0 :: pre') ++ sfx).filter fun r => r.streak_group = k).length))
      = groupFirstSize sfx := by
    unfold groupFirstSize
    refine List.map_congr_left ?_
    intro k hk
    have hkg : g < k := by
      rcases List.mem_map.mp (List.mem_dedup.mp hk) with ⟨r, hr, hrk⟩
      rw [← hrk]; exact hsfx r hr
    have hpempty : (r0 :: pre').filter (fun r => r.streak_group = k) = [] :=
      List.filter_eq_nil_iff.mpr (fun r hr => by
        have := (hpre r hr).1
        simp [this, Nat.ne_of_lt hkg])
    rw [List.filter_append, hpempty, List.nil_append]
  rw [hhead, htail]
  rfl

lemma groupFirstSize_enrichFrom (m : ℚ) (bs : List PriceBar) :
    ∀ (pre : List AnalyzedBar) (d : String) (g : Nat),
      pre ≠ [] →
      (∀ r ∈ pre, r.streak_group = g ∧ r.Direction = d) →
      groupFirstSize (pre ++ enrichFrom m d g bs)
        = runLengthsAux d pre.length (bs.map fun b => b.Direction) := by
  induction bs with
  | nil =>
      intro pre d g hne hpre
      have h := groupFirstSize_append pre [] g d hne hpre (by intro r hr; cases hr)
      have h0 : groupFirstSize ([] : List AnalyzedBar) = [] := rfl
      rw [h0] at h
      simpa [enrichFrom, runLengthsAux] using h
  | cons b bs ih =>
      intro pre d g hne hpre
      by_cases hbd : b.Direction = d
      · have hEF : enrichFrom m d g (b :: bs) = mkRow m b g :: enrichFrom m d g bs := by
          simp [enrichFrom, hbd]
        have hassoc : pre ++ (mkRow m b g :: enrichFrom m d g bs)
            = (pre ++ [mkRow m b g]) ++ enrichFrom m d g bs := by simp
        have hpre' : ∀ r ∈ pre ++ [mkRow m b g], r.streak_group = g ∧ r.Direction = d := by
          intro r hr
          rcases List.mem_append.mp hr with h | h
          · exact hpre r h
          · rcases List.mem_singleton.mp h with rfl
            exact ⟨rfl, hbd⟩
        have := ih (pre ++ [mkRow m b g]) d g (by simp) hpre'
        rw [hEF, hassoc, this]
        simp [runLengthsAux, hbd]
      · have hEF : enrichFrom m d g (b :: bs)
            = [mkRow m b (g + 1)] ++ enrichFrom m b.Direction (g + 1) bs := by
          simp [enrichFrom, hbd]
        have hsfx : ∀ r ∈ [mkRow m b (g + 1)] ++ enrichFrom m b.Direction (g + 1) bs,
            g < r.streak_group := by
          intro r hr
          rcases List.mem_append.mp hr with h | h
          · rcases List.mem_singleton.mp h with rfl
            exact Nat.lt_succ_self g
          · have := streak_ge m bs b.Direction (g + 1) r h
            omega
        have hsplit := groupFirstSize_append pre
          ([mkRow m b (g + 1)] ++ enrichFrom m b.Direction (g + 1) bs) g d hne hpre hsfx
        have hrec := ih [mkRow m b (g + 1)] b.Direction (g + 1) (by simp)
          (by intro r hr; rcases List.mem_singleton.mp hr with rfl; exact ⟨rfl, rfl⟩)
        rw [hEF, hsplit, hrec]
        simp [runLengthsAux, hbd]

lemma groupFirstSize_enrichRows (m : ℚ) (bars : List PriceBar) (h : bars ≠ []) :
    groupFirstSize (enrichRows m bars) = runLengths (bars.map fun b => b.Direction) := by
  cases bars with
  | nil => exact absurd rfl h
  | cons b bs =>
      have := groupFirstSize_enrichFrom m bs [mkRow m b 1] b.Direction 1 (by simp)
        (by intro r hr; rcases List.mem_singleton.mp hr with rfl; exact ⟨rfl, rfl⟩)
      simpa [enrichRows, runLengths] using this

lemma filter_map_eq {α β γ δ : Type} (P : γ → Bool) (k1 : α → γ) (v1 : α → δ)
    (k2 : β → γ) (v2 : β → δ) :
    ∀ (l1 : List α) (l2 : List β),
      l1.map (fun a => (k1 a, v1 a)) = l2.map (fun b => (k2 b, v2 b)) →
      (l1.filter fun a => P (k1 a)).map v1 = (l2.filter fun b => P (k2 b)).map v2 := by
  intro l1
  induction l1 with
  | nil =>
      intro l2 h
      cases l2 with
      | nil => rfl
      | cons b l2 => simp at h
  | cons a l1 ih =>
      intro l2 h
      cases l2 with
      | nil => simp at h
      | cons b l2 =>
          simp only [List.map_cons, List.cons.injEq, Prod.mk.injEq] at h
          obtain ⟨⟨hk, hv⟩, ht⟩ := h
          rw [List.filter_cons, List.filter_cons, hk]
          by_cases hP : P (k2 b) = true
          · simp [hP, hv, ih l2 ht]
          · have hP' : P (k2 b) = false := by simpa using hP
            simp [hP', ih l2 ht]

lemma length_filter_mono {α : Type} (p q : α → Bool)
    (himp : ∀ a, p a = true → q a = true) :
    ∀ l : List α, (l.filter p).length ≤ (l.filter q).length := by
  intro l
  induction l with
  | nil => exact Nat.le_refl 0
  | cons a l ih =>
      rw [List.filter_cons, List.filter_cons]
      by_cases hp : p a = true
      · rw [if_pos hp, if_pos (himp a hp)]
        simpa using ih
      · rw [if_neg hp]
        by_cases hq : q a = true
        · rw [if_pos hq]; simp; omega
        · rw [if_neg hq]; exact ih

lemma length_filter_lt {α : Type} (p q : α → Bool)
    (himp : ∀ a, p a = true → q a = true) :
    ∀ (l : List α) (a0 : α), a0 ∈ l → q a0 = true → p a0 = false →
      (l.filter p).length < (l.filter q).length := by
  intro l
  induction l with
  | nil => intro a0 h; cases h
  | cons a l ih =>
      intro a0 hmem hq0 hp0
      rw [List.filter_cons, List.filter_cons]
      rcases List.mem_cons.mp hmem with rfl | hmem'
      · rw [if_neg (by simp [hp0]), if_pos hq0]
        have := length_filter_mono p q himp l
        simp
        omega
      · by_cases hp : p a = true
        · rw [if_pos hp, if_pos (himp a hp)]
          have := ih a0 hmem' hq0 hp0
          simp
          omega
        · rw [if_neg hp]
          by_cases hq : q a = true
          · rw [if_pos hq]
            have := ih a0 hmem' hq0 hp0
            simp
            omega
          · rw [if_neg hq]
            exact ih a0 hmem' hq0 hp0

lemma length_filter_or_disjoint {α : Type} (p q : α → Bool)
    (hdis : ∀ a, ¬(p a = true ∧ q a = true)) :
    ∀ l : List α,
      (l.filter fun a => p a || q a).length = (l.filter p).length + (l.filter q).length := by
  intro l
  induction l with
  | nil => rfl
  | cons a l ih =>
      rw [List.filter_cons, List.filter_cons, List.filter_cons]
      by_cases hp : p a = true
      · have hq : q a = false := by
          rcases hq : q a with _ | _
          · rfl
          · exact absurd ⟨hp, hq⟩ (hdis a)
        simp only [hp, hq, Bool.true_or, if_true, if_false]
        simp [ih]
        omega
      · have hp' : p a = false := by simpa using hp
        rcases hq : q a with _ | _
        · simp only [hp', hq, Bool.false_or, if_false]
          exact ih
        · simp only [hp', hq, Bool.false_or, if_true, if_false]
          simp [ih]
          omega

lemma sum_map_filter_key {α β : Type} [DecidableEq β] (key : α → β) :
    ∀ K : List β, K.Nodup → ∀ l : List α,
      (K.map fun k => (l.filter fun a => key a = k).length).sum
        = (l.filter fun a => key a ∈ K).length := by
  intro K
  induction K with
  | nil =>
      intro _ l
      have : (l.filter fun a => key a ∈ ([] : List β)) = [] :=
        List.filter_eq_nil_iff.mpr (fun a _ => by simp)
      simp [this]
  | cons k K ih =>
      intro hnd l
      have hk : k ∉ K := (List.nodup_cons.mp hnd).1
      have hK : K.Nodup := (List.nodup_cons.mp hnd).2
      rw [List.map_cons, List.sum_cons, ih hK l]
      have hdis : ∀ a, ¬((decide (key a = k)) = true ∧ (decide (key a ∈ K)) = true) := by
        intro a ⟨h1, h2⟩
        rw [decide_eq_true_eq] at h1 h2
        rw [h1] at h2
        exact hk h2
      have hor := length_filter_or_disjoint (fun a => decide (key a = k))
        (fun a => decide (key a ∈ K)) hdis l
      have hcongr : (l.filter fun a => key a ∈ k :: K)
          = l.filter fun a => (decide (key a = k) || decide (key a ∈ K)) := by
        refine List.filter_congr ?_
        intro a _
        simp [List.mem_cons]
      rw [hcongr, hor]

lemma dir_count_bridge (m : ℚ) (bars : List PriceBar) (P : String → Bool) :
    ((enrichRows m bars).filter fun r => P r.Direction).length
      = (bars.filter fun b => P b.Direction).length := by
  have h := filter_map_eq P (fun r : AnalyzedBar => r.Direction) (fun r => r.Direction)
      (fun b : PriceBar => b.Direction) (fun b => b.Direction)
      (enrichRows m bars) bars
      (enrichRows_map m (fun r => (r.Direction, r.Direction))
        (fun b => (b.Direction, b.Direction)) (fun b g => rfl) bars)
  have h2 := congrArg List.length h
  simpa using h2

lemma pair_count_bridge (m : ℚ) (bars : List PriceBar) (P : String × String → Bool) :
    ((enrichRows m bars).filter fun r => P (r.Day_Name, r.Direction)).length
      = (bars.filter fun b => P (dayName b.Date, b.Direction)).length := by
  have h := filter_map_eq P (fun r : AnalyzedBar => (r.Day_Name, r.Direction))
      (fun r => r.Direction)
      (fun b : PriceBar => (dayName b.Date, b.Direction)) (fun b => b.Direction)
      (enrichRows m bars) bars
      (enrichRows_map m (fun r => ((r.Day_Name, r.Direction), r.Direction))
        (fun b => ((dayName b.Date, b.Direction), b.Direction)) (fun b g => rfl) bars)
  have h2 := congrArg List.length h
  simpa using h2

lemma dir_sum_bridge (m : ℚ) (bars : List PriceBar) (P : String → Bool) :
    (((enrichRows m bars).filter fun r => P r.Direction).map fun r => r.Points_Display).sum
      = ((bars.filter fun b => P b.Direction).map fun b => (b.Close - b.Open) * m).sum := by
  have h := filter_map_eq P (fun r : AnalyzedBar => r.Direction) (fun r => r.Points_Display)
      (fun b : PriceBar => b.Direction) (fun b => (b.Close - b.Open) * m)
      (enrichRows m bars) bars
      (enrichRows_map m (fun r => (r.Direction, r.Points_Display))
        (fun b => (b.Direction, (b.Close - b.Open) * m)) (fun b g => rfl) bars)
  exact congrArg List.sum h

lemma dir_abs_sum_bridge (m : ℚ) (bars : List PriceBar) (P : String → Bool) :
    (((enrichRows m bars).filter fun r => P r.Direction).map fun r => |r.Points_Display|).sum
      = ((bars.filter fun b => P b.Direction).map fun b => |(b.Close - b.Open) * m|).sum := by
  have h := filter_map_eq P (fun r : AnalyzedBar => r.Direction)
      (fun r => |r.Points_Display|)
      (fun b : PriceBar => b.Direction) (fun b => |(b.Close - b.Open) * m|)
      (enrichRows m bars) bars
      (enrichRows_map m (fun r => (r.Direction, |r.Points_Display|))
        (fun b => (b.Direction, |(b.Close - b.Open) * m|)) (fun b g => rfl) bars)
  exact congrArg List.sum h

lemma net_sum_bridge (m : ℚ) (bars : List PriceBar) :
    ((enrichRows m bars).map fun r => r.Points_Display).sum
      = (bars.map fun b => (b.Close - b.Open) * m).sum :=
  congrArg List.sum (enrichRows_map m (fun r => r.Points_Display)
    (fun b => (b.Close - b.Open) * m) (fun _ _ => rfl) bars)

lemma length_filter_add_not {α : Type} (p : α → Bool) :
    ∀ l : List α, (l.filter p).length + (l.filter fun a => !p a).length = l.length := by
  intro l
  induction l with
  | nil => rfl
  | cons a l ih =>
      rw [List.filter_cons, List.filter_cons]
      rcases hp : p a with _ | _ <;> simp [hp] <;> omega

lemma sumCells_distTable (rows : List AnalyzedBar) :
    sumCells (distTable rows)
      = (rows.filter fun r =>
          r.Day_Name ∈ days_order ∧ r.Direction ∈ directions_order).length := by
  have hinner : ∀ d : String,
      ((directions_order.map fun e =>
          (rows.filter fun r => r.Day_Name = d ∧ r.Direction = e).length)).sum
        = ((rows.filter fun r => r.Day_Name = d).filter
            fun r => r.Direction ∈ directions_order).length := by
    intro d
    have hsplit : ∀ e : String,
        (rows.filter fun r => r.Day_Name = d ∧ r.Direction = e)
          = (rows.filter fun r => r.Day_Name = d).filter fun r => r.Direction = e := by
      intro e
      rw [List.filter_filter]
      refine List.filter_congr ?_
      intro r _
      simp [and_comm]
    have hmapc : (directions_order.map fun e =>
          (rows.filter fun r => r.Day_Name = d ∧ r.Direction = e).length)
        = directions_order.map fun e =>
          (((rows.filter fun r => r.Day_Name = d).filter
            fun r => r.Direction = e)).length := by
      refine List.map_congr_left ?_
      intro e _
      rw [hsplit e]
    rw [hmapc]
    exact sum_map_filter_key (fun r : AnalyzedBar => r.Direction) directions_order
      (by decide) (rows.filter fun r => r.Day_Name = d)
  have hswap : ∀ d : String,
      ((rows.filter fun r => r.Day_Name = d).filter
          fun r => r.Direction ∈ directions_order).length
        = ((rows.filter fun r => r.Direction ∈ directions_order).filter
            fun r => r.Day_Name = d).length := by
    intro d
    rw [List.filter_filter, List.filter_filter]
    have : (rows.filter fun r =>
          decide (r.Direction ∈ directions_order) && decide (r.Day_Name = d))
        = rows.filter fun r =>
          decide (r.Day_Name = d) && decide (r.Direction ∈ directions_order) := by
      refine List.filter_congr ?_
      intro r _
      rw [Bool.and_comm]
    rw [this]
  have houter :
      ((days_order.map fun d =>
          ((rows.filter fun r => r.Direction ∈ directions_order).filter
            fun r => r.Day_Name = d).length)).sum
        = ((rows.filter fun r => r.Direction ∈ directions_order).filter
            fun r => r.Day_Name ∈ days_order).length :=
    sum_map_filter_key (fun r : AnalyzedBar => r.Day_Name) days_order (by decide)
      (rows.filter fun r => r.Direction ∈ directions_order)
  have hfinal :
      ((rows.filter fun r => r.Direction ∈ directions_order).filter
          fun r => r.Day_Name ∈ days_order)
        = rows.filter fun r =>
          r.Day_Name ∈ days_order ∧ r.Direction ∈ directions_order := by
    rw [List.filter_filter]
    refine List.filter_congr ?_
    intro r _
    simp [and_comm]
  calc sumCells (distTable rows)
      = ((days_order.map fun d =>
          ((directions_order.map fun e =>
            (rows.filter fun r => r.Day_Name = d ∧ r.Direction = e).length)).sum)).sum := by
        simp only [sumCells, distTable, List.map_map]
        rfl
    _ = ((days_order.map fun d =>
          ((rows.filter fun r => r.Direction ∈ directions_order).filter
            fun r => r.Day_Name = d).length)).sum := by
        refine congrArg List.sum (List.map_congr_left ?_)
        intro d _
        rw [hinner d, hswap d]
    _ = ((rows.filter fun r => r.Direction ∈ directions_order).filter
          fun r => r.Day_Name ∈ days_order).length := houter
    _ = (rows.filter fun r =>
          r.Day_Name ∈ days_order ∧ r.Direction ∈ directions_order).length := by
        rw [hfinal]

/-- Scenario A of the specification: Monday 2024-01-01 (day 19723 since
the epoch) through Wednesday 2024-01-03, one UP, one DOWN, one
break-even bar. -/
def wA : List PriceBar :=
  [⟨19723, 100, 106, 99, 105, "UP"⟩,
   ⟨19724, 105, 106, 99, 100, "DOWN"⟩,
   ⟨19725, 100, 101, 99, 100, "Break Even"⟩]

/-- Scenario B of the specification: five consecutive UP days followed
by two DOWN days. -/
def wB : List PriceBar :=
  [⟨10, 100, 106, 99, 101, "UP"⟩,
   ⟨11, 101, 106, 99, 102, "UP"⟩,
   ⟨12, 102, 106, 99, 103, "UP"⟩,
   ⟨13, 103, 106, 99, 104, "UP"⟩,
   ⟨14, 104, 106, 99, 105, "UP"⟩,
   ⟨15, 105, 106, 99, 103, "DOWN"⟩,
   ⟨16, 103, 106, 99, 101, "DOWN"⟩]

/-- A single bar dated on a Saturday (day 2 since the Thursday epoch). -/
def wSat : List PriceBar := [⟨2, 100, 101, 99, 100, "Break Even"⟩]

/-- C1: for every non-empty input, the `streak_group` value assigned by
`run_analysis` is 1 on the first row; each subsequent row's value is the
previous row's value plus one exactly when the direction changed and the
previous row's value otherwise; hence `streak_group` is non-decreasing
along the sequence. -/
theorem spec_C1_streak_recurrence (m : ℚ) (pdec : Nat) (bars : List PriceBar)
    (h : bars ≠ []) :
    (((run_analysis m pdec bars).1.head?).map fun r => r.streak_group) = some 1 ∧
    List.Chain' streakStep (run_analysis m pdec bars).1 ∧
    List.Pairwise (fun a b : AnalyzedBar => a.streak_group ≤ b.streak_group)
      (run_analysis m pdec bars).1 := by
  rw [run_analysis_eq m pdec bars h]
  refine ⟨?_, chain'_enrichRows m bars, pairwise_streak_le m bars⟩
  cases bars with
  | nil => exact absurd rfl h
  | cons b bs => rfl

/-- Witness for C1 at the concrete Scenario A input. -/
theorem spec_C1_witness :
    wA ≠ [] ∧
    ((((run_analysis 10 2 wA).1.head?).map fun r => r.streak_group) = some 1 ∧
     List.Chain' streakStep (run_analysis 10 2 wA).1 ∧
     List.Pairwise (fun a b : AnalyzedBar => a.streak_group ≤ b.streak_group)
       (run_analysis 10 2 wA).1) :=
  ⟨by decide, spec_C1_streak_recurrence 10 2 wA (by decide)⟩

/-- C2: for every non-empty input, each `longest_*_streak` statistic
equals the maximum length of a maximal consecutive run of the respective
direction label in the input, and 0 when no such run exists. -/
theorem spec_C2_longest_streaks (m : ℚ) (pdec : Nat) (bars : List PriceBar)
    (h : bars ≠ []) :
    ((run_analysis m pdec bars).2.map fun s => s.longest_up_streak)
        = some (maxStreakLen "UP" (bars.map fun b => b.Direction)) ∧
    ((run_analysis m pdec bars).2.map fun s => s.longest_down_streak)
        = some (maxStreakLen "DOWN" (bars.map fun b => b.Direction)) ∧
    ((run_analysis m pdec bars).2.map fun s => s.longest_break_even_streak)
        = some (maxStreakLen "Break Even" (bars.map fun b => b.Direction)) := by
  rw [run_analysis_eq m pdec bars h]
  have hg := groupFirstSize_enrichRows m bars h
  refine ⟨?_, ?_, ?_⟩ <;>
    simp [summaryOf, longestStreakFor, maxStreakLen, hg]

/-- Witness for C2 at the concrete Scenario B input: five UP days then
two DOWN days give longest streaks 5, 2 and 0. -/
theorem spec_C2_witness :
    wB ≠ [] ∧
    ((run_analysis 10 2 wB).2.map fun s => s.longest_up_streak) = some 5 ∧
    ((run_analysis 10 2 wB).2.map fun s => s.longest_down_streak) = some 2 ∧
    ((run_analysis 10 2 wB).2.map fun s => s.longest_break_even_streak) = some 0 := by
  obtain ⟨h1, h2, h3⟩ := spec_C2_longest_streaks 10 2 wB (by decide)
  refine ⟨by decide, ?_, ?_, ?_⟩
  · rw [h1]; decide
  · rw [h2]; decide
  · rw [h3]; decide

/-- C3: for every non-empty input, `run_analysis` returns an enriched
table of the same length, with all original fields unchanged in order,
`Raw_Points = Close - Open`, `Points_Display = Raw_Points *
point_multiplier`, and `Day_Name` the weekday name of the row's date. -/
theorem spec_C3_enrichment (m : ℚ) (pdec : Nat) (bars : List PriceBar)
    (h : bars ≠ []) :
    (run_analysis m pdec bars).1.length = bars.length ∧
    ((run_analysis m pdec bars).1.map fun r =>
        (r.Date, r.Open, r.High, r.Low, r.Close, r.Direction))
      = (bars.map fun b => (b.Date, b.Open, b.High, b.Low, b.Close, b.Direction)) ∧
    ((run_analysis m pdec bars).1.map fun r => r.Raw_Points)
      = (bars.map fun b => b.Close - b.Open) ∧
    ((run_analysis m pdec bars).1.map fun r => r.Points_Display)
      = (bars.map fun b => (b.Close - b.Open) * m) ∧
    ((run_analysis m pdec bars).1.map fun r => r.Day_Name)
      = (bars.map fun b => dayName b.Date) := by
  rw [run_analysis_eq m pdec bars h]
  exact ⟨enrichRows_length m bars,
    enrichRows_map m _ _ (fun b g => rfl) bars,
    enrichRows_map m _ _ (fun b g => rfl) bars,
    enrichRows_map m _ _ (fun b g => rfl) bars,
    enrichRows_map m _ _ (fun b g => rfl) bars⟩

/-- Witness for C3 at the concrete Scenario A input. -/
theorem spec_C3_witness :
    wA ≠ [] ∧
    ((run_analysis 10 2 wA).1.length = wA.length ∧
     ((run_analysis 10 2 wA).1.map fun r =>
         (r.Date, r.Open, r.High, r.Low, r.Close, r.Direction))
       = (wA.map fun b => (b.Date, b.Open, b.High, b.Low, b.Close, b.Direction)) ∧
     ((run_analysis 10 2 wA).1.map fun r => r.Raw_Points)
       = (wA.map fun b => b.Close - b.Open) ∧
     ((run_analysis 10 2 wA).1.map fun r => r.Points_Display)
       = (wA.map fun b => (b.Close - b.Open) * 10) ∧
     ((run_analysis 10 2 wA).1.map fun r => r.Day_Name)
       = (wA.map fun b => dayName b.Date)) :=
  ⟨by decide, spec_C3_enrichment 10 2 wA (by decide)⟩

/-- The all-zero five-by-three distribution table. -/
def zeroTable : List (List Nat) :=
  [[0, 0, 0], [0, 0, 0], [0, 0, 0], [0, 0, 0], [0, 0, 0]]

/-- C9: empty input gives an empty enriched table with the distinct
no-data summary and an empty distribution with no reindexing, which is a
different value from the all-zero weekday table produced by a non-empty
input that has no weekday rows (here a single Saturday bar). -/
theorem spec_C9_empty_input (m : ℚ) (pdec : Nat) :
    run_analysis m pdec [] = ([], none) ∧
    calculate_day_of_week_distribution [] = none ∧
    calculate_day_of_week_distribution ((run_analysis 10 2 wSat).1) = some zeroTable ∧
    calculate_day_of_week_distribution [] ≠
      calculate_day_of_week_distribution ((run_analysis 10 2 wSat).1) := by
  refine ⟨rfl, rfl, by decide, ?_⟩
  intro hcontra
  rw [show calculate_day_of_week_distribution [] = none from rfl] at hcontra
  rw [show calculate_day_of_week_distribution ((run_analysis 10 2 wSat).1)
      = some zeroTable by decide] at hcontra
  cases hcontra

lemma counts_partition (bars : List PriceBar) :
    (bars.filter fun b => b.Direction = "UP").length
      + (bars.filter fun b => b.Direction = "DOWN").length
      + (bars.filter fun b => ¬(b.Direction = "UP" ∨ b.Direction = "DOWN")).length
      = bars.length := by
  have hdis : ∀ b : PriceBar,
      ¬((decide (b.Direction = "UP")) = true ∧ (decide (b.Direction = "DOWN")) = true) := by
    intro b ⟨h1, h2⟩
    rw [decide_eq_true_eq] at h1 h2
    rw [h1] at h2
    exact absurd h2 (by decide)
  have h1 := length_filter_or_disjoint (fun b : PriceBar => decide (b.Direction = "UP"))
    (fun b => decide (b.Direction = "DOWN")) hdis bars
  have h2 := length_filter_add_not
    (fun b : PriceBar => decide (b.Direction = "UP") || decide (b.Direction = "DOWN")) bars
  have h3 : (bars.filter fun b =>
        !(decide (b.Direction = "UP") || decide (b.Direction = "DOWN")))
      = bars.filter fun b => ¬(b.Direction = "UP" ∨ b.Direction = "DOWN") := by
    refine List.filter_congr ?_
    intro b _
    simp
  rw [h3] at h2
  omega

/-- C4: for every non-empty input, `up_days` and `down_days` are the
exact counts of rows whose direction is `UP` and `DOWN`,
`break_even_days` is derived as `total_days - up_days - down_days`
(absorbing every other label), and the three counts always sum to
`total_days`. -/
theorem spec_C4_day_counts (m : ℚ) (pdec : Nat) (bars : List PriceBar)
    (h : bars ≠ []) :
    ((run_analysis m pdec bars).2.map fun s => s.up_days)
        = some (bars.filter fun b => b.Direction = "UP").length ∧
    ((run_analysis m pdec bars).2.map fun s => s.down_days)
        = some (bars.filter fun b => b.Direction = "DOWN").length ∧
    ((run_analysis m pdec bars).2.map fun s => s.break_even_days)
        = some ((bars.length : ℤ)
            - (bars.filter fun b => b.Direction = "UP").length
            - (bars.filter fun b => b.Direction = "DOWN").length) ∧
    ((run_analysis m pdec bars).2.map fun s =>
        (s.up_days : ℤ) + s.down_days + s.break_even_days)
        = some (bars.length : ℤ) ∧
    ((run_analysis m pdec bars).2.map fun s => s.break_even_days)
        = some ((bars.filter fun b =>
            ¬(b.Direction = "UP" ∨ b.Direction = "DOWN")).length : ℤ) := by
  rw [run_analysis_eq m pdec bars h]
  have hup : ((enrichRows m bars).filter fun r => r.Direction = "UP").length
      = (bars.filter fun b => b.Direction = "UP").length :=
    dir_count_bridge m bars (fun s => s = "UP")
  have hdown : ((enrichRows m bars).filter fun r => r.Direction = "DOWN").length
      = (bars.filter fun b => b.Direction = "DOWN").length :=
    dir_count_bridge m bars (fun s => s = "DOWN")
  have hlen := enrichRows_length m bars
  have hpart := counts_partition bars
  refine ⟨?_, ?_, ?_, ?_, ?_⟩ <;>
    simp only [Option.map_some', Option.some.injEq, summaryOf, hup, hdown, hlen] <;>
    omega

/-- Witness for C4 at the concrete Scenario A input: one UP day, one
DOWN day, one break-even day out of three. -/
theorem spec_C4_witness :
    wA ≠ [] ∧
    ((run_analysis 10 2 wA).2.map fun s => s.up_days) = some 1 ∧
    ((run_analysis 10 2 wA).2.map fun s => s.down_days) = some 1 ∧
    ((run_analysis 10 2 wA).2.map fun s => s.break_even_days) = some 1 ∧
    ((run_analysis 10 2 wA).2.map fun s =>
        (s.up_days : ℤ) + s.down_days + s.break_even_days) = some 3 := by
  obtain ⟨h1, h2, h3, h4, h5⟩ := spec_C4_day_counts 10 2 wA (by decide)
  refine ⟨by decide, ?_, ?_, ?_, ?_⟩
  · rw [h1]; decide
  · rw [h2]; decide
  · rw [h3]; decide
  · rw [h4]; decide

/-- C5: for every non-empty input, each percentage equals the matching
count divided by `total_days` times 100, all three lie in `[0, 100]`,
they sum to exactly 100, and with zero rows all three are 0 by the
division guard rather than a division error. -/
theorem spec_C5_percentages (m : ℚ) (pdec : Nat) (bars : List PriceBar)
    (h : bars ≠ []) :
    (run_analysis m pdec bars).2 = some (summaryOf m pdec (enrichRows m bars)) ∧
    (summaryOf m pdec (enrichRows m bars)).up_pct
        = ((bars.filter fun b => b.Direction = "UP").length : ℚ) / bars.length * 100 ∧
    (summaryOf m pdec (enrichRows m bars)).down_pct
        = ((bars.filter fun b => b.Direction = "DOWN").length : ℚ) / bars.length * 100 ∧
    (summaryOf m pdec (enrichRows m bars)).break_even_pct
        = ((summaryOf m pdec (enrichRows m bars)).break_even_days : ℚ) / bars.length * 100 ∧
    0 ≤ (summaryOf m pdec (enrichRows m bars)).up_pct ∧
    (summaryOf m pdec (enrichRows m bars)).up_pct ≤ 100 ∧
    0 ≤ (summaryOf m pdec (enrichRows m bars)).down_pct ∧
    (summaryOf m pdec (enrichRows m bars)).down_pct ≤ 100 ∧
    0 ≤ (summaryOf m pdec (enrichRows m bars)).break_even_pct ∧
    (summaryOf m pdec (enrichRows m bars)).break_even_pct ≤ 100 ∧
    (summaryOf m pdec (enrichRows m bars)).up_pct
      + (summaryOf m pdec (enrichRows m bars)).down_pct
      + (summaryOf m pdec (enrichRows m bars)).break_even_pct = 100 ∧
    (summaryOf m pdec []).up_pct = 0 ∧
    (summaryOf m pdec []).down_pct = 0 ∧
    (summaryOf m pdec []).break_even_pct = 0 := by
  have hup : ((enrichRows m bars).filter fun r => r.Direction = "UP").length
      = (bars.filter fun b => b.Direction = "UP").length :=
    dir_count_bridge m bars (fun s => s = "UP")
  have hdown : ((enrichRows m bars).filter fun r => r.Direction = "DOWN").length
      = (bars.filter fun b => b.Direction = "DOWN").length :=
    dir_count_bridge m bars (fun s => s = "DOWN")
  have hlen := enrichRows_length m bars
  have hpos : 0 < bars.length := List.length_pos.mpr h
  have hcast : ((bars.length : ℚ)) ≠ 0 := by
    exact_mod_cast Nat.pos_iff_ne_zero.mp hpos
  have hule : (bars.filter fun b => b.Direction = "UP").length ≤ bars.length :=
    List.length_filter_le _ bars
  have hdle : (bars.filter fun b => b.Direction = "DOWN").length ≤ bars.length :=
    List.length_filter_le _ bars
  have hpart := counts_partition bars
  set u := (bars.filter fun b => b.Direction = "UP").length with hu
  set dn := (bars.filter fun b => b.Direction = "DOWN").length with hd
  have hsum_le : u + dn ≤ bars.length := by omega
  have hup_pct : (summaryOf m pdec (enrichRows m bars)).up_pct
      = (u : ℚ) / bars.length * 100 := by
    simp only [summaryOf, hup, hlen]
    rw [if_pos hpos]
  have hdown_pct : (summaryOf m pdec (enrichRows m bars)).down_pct
      = (dn : ℚ) / bars.length * 100 := by
    simp only [summaryOf, hdown, hlen]
    rw [if_pos hpos]
  have hbe_days : (summaryOf m pdec (enrichRows m bars)).break_even_days
      = (bars.length : ℤ) - u - dn := by
    simp only [summaryOf, hup, hdown, hlen]
  have hbe_pct : (summaryOf m pdec (enrichRows m bars)).break_even_pct
      = (((bars.length : ℤ) - u - dn : ℤ) : ℚ) / bars.length * 100 := by
    simp only [summaryOf, hup, hdown, hlen]
    rw [if_pos hpos]
  have hbe_cast : (((bars.length : ℤ) - u - dn : ℤ) : ℚ)
      = (bars.length : ℚ) - u - dn := by push_cast; ring
  have bound : ∀ k : Nat, k ≤ bars.length →
      0 ≤ (k : ℚ) / bars.length * 100 ∧ (k : ℚ) / bars.length * 100 ≤ 100 := by
    intro k hk
    constructor
    · positivity
    · have h1 : (k : ℚ) / bars.length ≤ 1 := by
        rw [div_le_one (by exact_mod_cast hpos)]
        exact_mod_cast hk
      nlinarith
  refine ⟨?_, hup_pct, hdown_pct, ?_, ?_, ?_, ?_, ?_, ?_, ?_, ?_, rfl, rfl, rfl⟩
  · rw [run_analysis_eq m pdec bars h]
  · rw [hbe_pct, hbe_days]
  · rw [hup_pct]; exact (bound u hule).1
  · rw [hup_pct]; exact (bound u hule).2
  · rw [hdown_pct]; exact (bound dn hdle).1
  · rw [hdown_pct]; exact (bound dn hdle).2
  · rw [hbe_pct, hbe_cast]
    have hnum : (0 : ℚ) ≤ (bars.length : ℚ) - u - dn := by
      have : ((u + dn : Nat) : ℚ) ≤ (bars.length : ℚ) := by exact_mod_cast hsum_le
      push_cast at this
      linarith
    positivity
  · rw [hbe_pct, hbe_cast]
    have hu0 : (0 : ℚ) ≤ (u : ℚ) := by positivity
    have hd0 : (0 : ℚ) ≤ (dn : ℚ) := by positivity
    have hk : (bars.length : ℚ) - u - dn ≤ (bars.length : ℚ) := by linarith
    have h1 : ((bars.length : ℚ) - u - dn) / bars.length ≤ 1 := by
      rw [div_le_one (by exact_mod_cast hpos)]
      exact hk
    nlinarith
  · rw [hup_pct, hdown_pct, hbe_pct, hbe_cast]
    field_simp
    ring

/-- Witness for C5 at the concrete Scenario A input: one of three days
in each category gives percentages of 100/3 each. -/
theorem spec_C5_witness :
    wA ≠ [] ∧
    (summaryOf 10 2 (enrichRows 10 wA)).up_pct = 100 / 3 ∧
    (summaryOf 10 2 (enrichRows 10 wA)).up_pct
      + (summaryOf 10 2 (enrichRows 10 wA)).down_pct
      + (summaryOf 10 2 (enrichRows 10 wA)).break_even_pct = 100 := by
  obtain ⟨h0, h1, h2, h3, h4, h5, h6, h7, h8, h9, h10, h11, h12, h13⟩ :=
    spec_C5_percentages 10 2 wA (by decide)
  refine ⟨by decide, ?_, h10⟩
  rw [h1]
  have hcnt : (wA.filter fun b => b.Direction = "UP").length = 1 := by decide
  have hlenA : wA.length = 3 := by decide
  rw [hcnt, hlenA]
  norm_num

lemma direction_of_down {o c : ℚ} (h : direction_of o c = "DOWN") : c < o := by
  unfold direction_of at h
  split at h
  · exact absurd h (by decide)
  · split at h
    · assumption
    · exact absurd h (by decide)

lemma direction_of_up {o c : ℚ} (h : direction_of o c = "UP") : o < c := by
  unfold direction_of at h
  split at h
  · assumption
  · split at h <;> exact absurd h (by decide)

lemma direction_of_break_even {o c : ℚ} (h : direction_of o c = "Break Even") : c = o := by
  by_contra hne
  rcases lt_or_gt_of_ne hne with hlt | hgt
  · rw [direction_of, if_neg (by linarith), if_pos hlt] at h
    exact absurd h (by decide)
  · rw [direction_of, if_pos hgt] at h
    exact absurd h (by decide)

lemma sum_nonpos_q : ∀ l : List ℚ, (∀ x ∈ l, x ≤ 0) → l.sum ≤ 0 := by
  intro l
  induction l with
  | nil => intro _; simp
  | cons a l ih =>
      intro h
      rw [List.sum_cons]
      have h1 := h a (by simp)
      have h2 := ih (fun x hx => h x (by simp [hx]))
      linarith

lemma sum_map_neg_q : ∀ l : List ℚ, (l.map fun x => -x).sum = -l.sum := by
  intro l
  induction l with
  | nil => simp
  | cons a l ih => simp [ih]; ring

lemma abs_sum_same_sign (l : List ℚ)
    (h : (∀ x ∈ l, 0 ≤ x) ∨ (∀ x ∈ l, x ≤ 0)) :
    (l.map fun x => |x|).sum = |l.sum| := by
  rcases h with h | h
  · have hmap : (l.map fun x => |x|) = l.map fun x => x :=
      List.map_congr_left (fun x hx => abs_of_nonneg (h x hx))
    rw [hmap, List.map_id']
    exact (abs_of_nonneg (List.sum_nonneg h)).symm
  · have hmap : (l.map fun x => |x|) = l.map fun x => -x :=
      List.map_congr_left (fun x hx => abs_of_nonpos (h x hx))
    rw [hmap, sum_map_neg_q]
    exact (abs_of_nonpos (sum_nonpos_q l h)).symm

/-- Two bars both labelled DOWN whose point deltas have opposite signs:
raw points +5 and -3, so with multiplier 10 the scaled points are +50
and -30. -/
def cexDown : List PriceBar :=
  [⟨100, 100, 106, 99, 105, "DOWN"⟩,
   ⟨101, 105, 106, 99, 102, "DOWN"⟩]

/-- Counterexample to C6 as stated: on `cexDown` the engine returns
`total_down_points = 80` (it sums the absolute values of the DOWN rows'
scaled points), while the sum-then-absolute-value of the claim would be
`|50 - 30| = 20`. -/
theorem spec_C6_counterexample :
    ((run_analysis 10 2 cexDown).2.map fun s => s.total_down_points_display)
        = some 80 ∧
    |((cexDown.filter fun b => b.Direction = "DOWN").map fun b =>
        (b.Close - b.Open) * 10).sum| = 20 ∧
    (80 : ℚ) ≠ 20 := by
  refine ⟨?_, by norm_num [cexDown], by norm_num⟩
  rw [run_analysis_eq 10 2 cexDown (by decide)]
  norm_num [summaryOf, enrichRows, enrichFrom, mkRow, cexDown]

/-- C6 as amended: `total_up_points` is the plain signed sum of
`scaled_points` over UP rows, while `total_down_points` sums the
absolute values of the DOWN rows' scaled points
(absolute-value-then-sum); when every row's direction correctly
classifies close against open, this coincides with the absolute value of
the sum (the two orders agree on correctly classified data because all
DOWN scaled points then share one sign). -/
theorem spec_C6_down_points (m : ℚ) (pdec : Nat) (bars : List PriceBar)
    (h : bars ≠ []) :
    (((run_analysis m pdec bars).2.map fun s => s.total_up_points_display)
        = some ((bars.filter fun b => b.Direction = "UP").map fun b =>
            (b.Close - b.Open) * m).sum) ∧
    (((run_analysis m pdec bars).2.map fun s => s.total_down_points_display)
        = some ((bars.filter fun b => b.Direction = "DOWN").map fun b =>
            |(b.Close - b.Open) * m|).sum) ∧
    ((∀ b ∈ bars, b.Direction = direction_of b.Open b.Close) →
      ((run_analysis m pdec bars).2.map fun s => s.total_down_points_display)
        = some |((bars.filter fun b => b.Direction = "DOWN").map fun b =>
            (b.Close - b.Open) * m).sum|) := by
  rw [run_analysis_eq m pdec bars h]
  have hupsum : (((enrichRows m bars).filter fun r => r.Direction = "UP").map
        fun r => r.Points_Display).sum
      = ((bars.filter fun b => b.Direction = "UP").map fun b =>
          (b.Close - b.Open) * m).sum :=
    dir_sum_bridge m bars (fun s => s = "UP")
  have hdownsum : (((enrichRows m bars).filter fun r => r.Direction = "DOWN").map
        fun r => |r.Points_Display|).sum
      = ((bars.filter fun b => b.Direction = "DOWN").map fun b =>
          |(b.Close - b.Open) * m|).sum :=
    dir_abs_sum_bridge m bars (fun s => s = "DOWN")
  refine ⟨?_, ?_, ?_⟩
  · simp only [Option.map_some', Option.some.injEq, summaryOf, hupsum]
  · simp only [Option.map_some', Option.some.injEq, summaryOf, hdownsum]
  · intro hclass
    simp only [Option.map_some', Option.some.injEq, summaryOf, hdownsum]
    have hmm : ((bars.filter fun b => b.Direction = "DOWN").map fun b =>
          |(b.Close - b.Open) * m|).sum
        = (((bars.filter fun b => b.Direction = "DOWN").map fun b =>
            (b.Close - b.Open) * m).map fun x => |x|).sum := by
      rw [List.map_map]
      rfl
    rw [hmm]
    refine abs_sum_same_sign _ ?_
    have hneg : ∀ b ∈ bars.filter fun b => b.Direction = "DOWN", b.Close - b.Open < 0 := by
      intro b hb
      have hmem := List.mem_of_mem_filter hb
      have hdir : b.Direction = "DOWN" := by
        have := List.of_mem_filter hb
        simpa using this
      have := direction_of_down (hdir ▸ (hclass b hmem)).symm
      linarith
    rcases le_total 0 m with hm | hm
    · right
      intro x hx
      rcases List.mem_map.mp hx with ⟨b, hb, rfl⟩
      have := hneg b hb
      nlinarith
    · left
      intro x hx
      rcases List.mem_map.mp hx with ⟨b, hb, rfl⟩
      have := hneg b hb
      nlinarith

/-- Witness for C6 as amended, at Scenario A with correctly classified
directions: the DOWN total is 50 both as abs-then-sum and as
sum-then-abs. -/
theorem spec_C6_witness :
    wA ≠ [] ∧ (∀ b ∈ wA, b.Direction = direction_of b.Open b.Close) ∧
    ((run_analysis 10 2 wA).2.map fun s => s.total_down_points_display) = some 50 ∧
    ((run_analysis 10 2 wA).2.map fun s => s.total_down_points_display)
      = some |((wA.filter fun b => b.Direction = "DOWN").map fun b =>
          (b.Close - b.Open) * 10).sum| := by
  obtain ⟨h1, h2, h3⟩ := spec_C6_down_points 10 2 wA (by decide)
  refine ⟨by decide, by decide, ?_, h3 (by decide)⟩
  rw [h2]
  simp only [wA, List.filter_cons, String.reduceEq, decide_False, decide_True,
    Bool.false_eq_true, if_false, if_true, ite_false, ite_true, List.filter_nil]
  norm_num

lemma sum_filter_split {α : Type} (p : α → Bool) (f : α → ℚ) :
    ∀ l : List α,
      ((l.filter p).map f).sum + ((l.filter fun a => !p a).map f).sum = (l.map f).sum := by
  intro l
  induction l with
  | nil => simp
  | cons a l ih =>
      rcases hp : p a with _ | _ <;>
        simp [List.filter_cons, hp] <;> linarith [ih]

lemma direction_of_cases (o c : ℚ) :
    direction_of o c = "UP" ∨ direction_of o c = "DOWN" ∨
      direction_of o c = "Break Even" := by
  unfold direction_of
  split
  · exact Or.inl rfl
  · split
    · exact Or.inr (Or.inl rfl)
    · exact Or.inr (Or.inr rfl)

/-- C7 as amended: `net_points` is the signed sum of all rows' scaled
points, computed globally and independently of direction bucketing; and
when every direction correctly classifies close against open and the
point multiplier is non-negative, `net_points` equals
`total_up_points - total_down_points`. -/
theorem spec_C7_net_points (m : ℚ) (pdec : Nat) (bars : List PriceBar)
    (h : bars ≠ []) :
    (((run_analysis m pdec bars).2.map fun s => s.net_points_display)
        = some (bars.map fun b => (b.Close - b.Open) * m).sum) ∧
    ((∀ b ∈ bars, b.Direction = direction_of b.Open b.Close) → 0 ≤ m →
      ((run_analysis m pdec bars).2.map fun s =>
          s.total_up_points_display - s.total_down_points_display)
        = some (bars.map fun b => (b.Close - b.Open) * m).sum) := by
  rw [run_analysis_eq m pdec bars h]
  have hupsum : (((enrichRows m bars).filter fun r => r.Direction = "UP").map
        fun r => r.Points_Display).sum
      = ((bars.filter fun b => b.Direction = "UP").map fun b =>
          (b.Close - b.Open) * m).sum :=
    dir_sum_bridge m bars (fun s => s = "UP")
  have hdownsum : (((enrichRows m bars).filter fun r => r.Direction = "DOWN").map
        fun r => |r.Points_Display|).sum
      = ((bars.filter fun b => b.Direction = "DOWN").map fun b =>
          |(b.Close - b.Open) * m|).sum :=
    dir_abs_sum_bridge m bars (fun s => s = "DOWN")
  constructor
  · simp only [Option.map_some', Option.some.injEq, summaryOf]
    exact net_sum_bridge m bars
  · intro hclass hm
    simp only [Option.map_some', Option.some.injEq, summaryOf, hupsum, hdownsum]
    have habs : ((bars.filter fun b => b.Direction = "DOWN").map fun b =>
          |(b.Close - b.Open) * m|).sum
        = -(((bars.filter fun b => b.Direction = "DOWN").map fun b =>
            (b.Close - b.Open) * m).sum) := by
      have hcong : ((bars.filter fun b => b.Direction = "DOWN").map fun b =>
            |(b.Close - b.Open) * m|)
          = ((bars.filter fun b => b.Direction = "DOWN").map fun b =>
              -((b.Close - b.Open) * m)) := by
        refine List.map_congr_left ?_
        intro b hb
        have hmem := List.mem_of_mem_filter hb
        have hdir : b.Direction = "DOWN" := by
          have := List.of_mem_filter hb
          simpa using this
        have hlt := direction_of_down (hdir ▸ (hclass b hmem)).symm
        have : (b.Close - b.Open) * m ≤ 0 := by nlinarith
        exact abs_of_nonpos this
      rw [hcong]
      have : ((bars.filter fun b => b.Direction = "DOWN").map fun b =>
            -((b.Close - b.Open) * m))
          = (((bars.filter fun b => b.Direction = "DOWN").map fun b =>
              (b.Close - b.Open) * m).map fun x => -x) := by
        rw [List.map_map]
        rfl
      rw [this, sum_map_neg_q]
    rw [habs]
    have hsplit1 := sum_filter_split (fun b : PriceBar => decide (b.Direction = "UP"))
      (fun b => (b.Close - b.Open) * m) bars
    have hsplit2 := sum_filter_split (fun b : PriceBar => decide (b.Direction = "DOWN"))
      (fun b => (b.Close - b.Open) * m)
      (bars.filter fun b => !(decide (b.Direction = "UP")))
    have hdd : ((bars.filter fun b => !(decide (b.Direction = "UP"))).filter
          fun b => decide (b.Direction = "DOWN"))
        = bars.filter fun b => b.Direction = "DOWN" := by
      rw [List.filter_filter]
      refine List.filter_congr ?_
      intro b _
      rcases hb : decide (b.Direction = "DOWN") with _ | _
      · simp
      · rw [decide_eq_true_eq] at hb
        simp [hb]
    have hzero : (((bars.filter fun b => !(decide (b.Direction = "UP"))).filter
          fun b => !(decide (b.Direction = "DOWN"))).map
            fun b => (b.Close - b.Open) * m).sum = 0 := by
      refine List.sum_eq_zero ?_
      intro x hx
      rcases List.mem_map.mp hx with ⟨b, hb, rfl⟩
      have hb2 := List.of_mem_filter hb
      have hb3 := List.mem_of_mem_filter hb
      have hb4 := List.of_mem_filter hb3
      have hmem := List.mem_of_mem_filter hb3
      have hnd : b.Direction ≠ "DOWN" := by
        intro hc
        rw [hc] at hb2
        simp at hb2
      have hnu : b.Direction ≠ "UP" := by
        intro hc
        rw [hc] at hb4
        simp at hb4
      have hcl := hclass b hmem
      rcases direction_of_cases b.Open b.Close with hc | hc | hc
      · exact absurd (hcl.trans hc) hnu
      · exact absurd (hcl.trans hc) hnd
      · have : b.Close = b.Open := direction_of_break_even hc
        rw [this]
        ring
    rw [hdd, hzero] at hsplit2
    linarith

/-- Two correctly classified bars, raw points +5 and -3: with the
negative multiplier -10 the scaled points are -50 and +30. -/
def cexNeg : List PriceBar :=
  [⟨200, 100, 106, 99, 105, "UP"⟩,
   ⟨201, 105, 106, 99, 102, "DOWN"⟩]

/-- Counterexample to C7 as stated: on `cexNeg`, whose directions all
correctly classify close against open, `point_multiplier = -10` gives
`net_points = -20` but `total_up_points - total_down_points = -80`. -/
theorem spec_C7_counterexample :
    (∀ b ∈ cexNeg, b.Direction = direction_of b.Open b.Close) ∧
    ((run_analysis (-10) 2 cexNeg).2.map fun s => s.net_points_display)
        = some (-20) ∧
    ((run_analysis (-10) 2 cexNeg).2.map fun s =>
        s.total_up_points_display - s.total_down_points_display)
        = some (-80) ∧
    (-20 : ℚ) ≠ -80 := by
  refine ⟨by decide, ?_, ?_, by norm_num⟩
  · rw [run_analysis_eq (-10) 2 cexNeg (by decide)]
    simp only [summaryOf, enrichRows, enrichFrom, mkRow, cexNeg, Option.map_some',
      Option.some.injEq, List.filter_cons, List.filter_nil, List.map_cons, List.map_nil,
      List.sum_cons, List.sum_nil, ne_eq, String.reduceEq, decide_False, decide_True,
      Bool.false_eq_true, if_false, if_true, ite_false, ite_true, not_false_iff]
    norm_num
  · rw [run_analysis_eq (-10) 2 cexNeg (by decide)]
    simp only [summaryOf, enrichRows, enrichFrom, mkRow, cexNeg, Option.map_some',
      Option.some.injEq, List.filter_cons, List.filter_nil, List.map_cons, List.map_nil,
      List.sum_cons, List.sum_nil, ne_eq, String.reduceEq, decide_False, decide_True,
      Bool.false_eq_true, if_false, if_true, ite_false, ite_true, not_false_iff]
    norm_num

/-- Witness for C7 as amended, at Scenario A with the default positive
multiplier: the net is 0 and equals the UP total minus the DOWN total. -/
theorem spec_C7_witness :
    wA ≠ [] ∧ (∀ b ∈ wA, b.Direction = direction_of b.Open b.Close) ∧
    ((0 : ℚ) ≤ 10) ∧
    ((run_analysis 10 2 wA).2.map fun s => s.net_points_display) = some 0 ∧
    ((run_analysis 10 2 wA).2.map fun s =>
        s.total_up_points_display - s.total_down_points_display) = some 0 := by
  obtain ⟨h1, h2⟩ := spec_C7_net_points 10 2 wA (by decide)
  have h3 := h2 (by decide) (by norm_num)
  refine ⟨by decide, by decide, by norm_num, ?_, ?_⟩
  · rw [h1]
    norm_num [wA]
  · rw [h3]
    norm_num [wA]

lemma enrichRows_direction_mem (m : ℚ) (bars : List PriceBar)
    (hlab : ∀ b ∈ bars, b.Direction ∈ directions_order) :
    ∀ r ∈ enrichRows m bars, r.Direction ∈ directions_order := by
  intro r hr
  have hmap := enrichRows_map m (fun r => r.Direction) (fun b => b.Direction)
    (fun b g => rfl) bars
  have hmem : r.Direction ∈ (enrichRows m bars).map fun r => r.Direction :=
    List.mem_map_of_mem _ hr
  rw [hmap] at hmem
  rcases List.mem_map.mp hmem with ⟨b, hb, he⟩
  rw [← he]
  exact hlab b hb

lemma dist_some (m : ℚ) (bars : List PriceBar) (h : bars ≠ []) :
    calculate_day_of_week_distribution (enrichRows m bars)
      = some (distTable (enrichRows m bars)) := by
  unfold calculate_day_of_week_distribution
  have hne : enrichRows m bars ≠ [] := by
    intro hc
    have hl := enrichRows_length m bars
    rw [hc] at hl
    exact h (List.length_eq_zero.mp hl.symm)
  rw [if_neg (by simp [List.isEmpty_iff, hne])]

/-- C8 as amended: for every non-empty input whose direction labels all
lie in the recognized set, the distribution is the fixed five-by-three
weekday-by-direction table of counts (zero-filled), Saturday and Sunday
rows appear in no cell while still counting toward `total_days`, and the
sum of all cells equals the number of weekday rows, which is at most
`total_days`. -/
theorem spec_C8_weekday_distribution (m : ℚ) (pdec : Nat) (bars : List PriceBar)
    (h : bars ≠ []) (hlab : ∀ b ∈ bars, b.Direction ∈ directions_order) :
    calculate_day_of_week_distribution ((run_analysis m pdec bars).1)
        = some (days_order.map fun d => directions_order.map fun e =>
            (bars.filter fun b => dayName b.Date = d ∧ b.Direction = e).length) ∧
    (calculate_day_of_week_distribution ((run_analysis m pdec bars).1)).map sumCells
        = some (bars.filter fun b => dayName b.Date ∈ days_order).length ∧
    (bars.filter fun b => dayName b.Date ∈ days_order).length ≤ bars.length := by
  rw [run_analysis_eq m pdec bars h]
  have hdist := dist_some m bars h
  have hcell : distTable (enrichRows m bars)
      = days_order.map fun d => directions_order.map fun e =>
          (bars.filter fun b => dayName b.Date = d ∧ b.Direction = e).length := by
    unfold distTable
    refine List.map_congr_left ?_
    intro d _
    refine List.map_congr_left ?_
    intro e _
    exact pair_count_bridge m bars (fun c => decide (c.1 = d ∧ c.2 = e))
  have hsum : sumCells (distTable (enrichRows m bars))
      = (bars.filter fun b => dayName b.Date ∈ days_order).length := by
    rw [sumCells_distTable]
    have hweek : ((enrichRows m bars).filter fun r =>
          r.Day_Name ∈ days_order ∧ r.Direction ∈ directions_order)
        = (enrichRows m bars).filter fun r => r.Day_Name ∈ days_order := by
      refine List.filter_congr ?_
      intro r hr
      simp [enrichRows_direction_mem m bars hlab r hr]
    rw [hweek]
    exact pair_count_bridge m bars (fun c => decide (c.1 ∈ days_order))
  refine ⟨?_, ?_, List.length_filter_le _ bars⟩
  · rw [hdist, hcell]
  · rw [hdist]
    simp only [Option.map_some', Option.some.injEq]
    exact hsum

/-- Witness for C8 as amended, at the concrete Scenario A input: three
weekday rows, one per category, all on Monday through Wednesday. -/
theorem spec_C8_witness :
    wA ≠ [] ∧ (∀ b ∈ wA, b.Direction ∈ directions_order) ∧
    (calculate_day_of_week_distribution ((run_analysis 10 2 wA).1)).map sumCells
      = some 3 ∧
    (wA.filter fun b => dayName b.Date ∈ days_order).length ≤ wA.length := by
  obtain ⟨h1, h2, h3⟩ := spec_C8_weekday_distribution 10 2 wA (by decide) (by decide)
  refine ⟨by decide, by decide, ?_, h3⟩
  rw [h2]
  decide

/-- A single weekday bar carrying a direction label outside the
recognized set. -/
def bMonBad : PriceBar := ⟨4, 100, 106, 99, 105, "SIDEWAYS"⟩

/-- The one-row input holding `bMonBad` (day 4 since the epoch is a
Monday). -/
def wMonBad : List PriceBar := [bMonBad]

/-- Counterexample to C8 as stated: `wMonBad` has one weekday row, but
the column reindex drops its unrecognized direction, so the cells of the
distribution sum to 0, not 1. -/
theorem spec_C8_counterexample :
    (calculate_day_of_week_distribution ((run_analysis 10 2 wMonBad).1)).map sumCells
        = some 0 ∧
    (((run_analysis 10 2 wMonBad).1).filter fun r => r.Day_Name ∈ days_order).length
        = 1 ∧
    (0 : Nat) ≠ 1 := by
  refine ⟨by decide, by decide, by decide⟩

/-- C10: when some weekday row carries a direction label outside
`{UP, DOWN, Break Even}`, the distribution silently drops it: the cells
sum to strictly fewer than the weekday rows, even though `run_analysis`
still counts the row in `total_days` and, through the subtraction,
in `break_even_days`. -/
theorem spec_C10_dropped_label (m : ℚ) (pdec : Nat) (bars : List PriceBar)
    (b0 : PriceBar) (hmem : b0 ∈ bars) (hwd : dayName b0.Date ∈ days_order)
    (hbad : b0.Direction ∉ directions_order) :
    calculate_day_of_week_distribution ((run_analysis m pdec bars).1)
        = some (distTable (enrichRows m bars)) ∧
    sumCells (distTable (enrichRows m bars))
        < (bars.filter fun b => dayName b.Date ∈ days_order).length ∧
    ((run_analysis m pdec bars).2.map fun s => s.total_days) = some bars.length ∧
    ((run_analysis m pdec bars).2.map fun s => s.break_even_days)
        = some ((bars.filter fun b =>
            ¬(b.Direction = "UP" ∨ b.Direction = "DOWN")).length : ℤ) ∧
    1 ≤ (bars.filter fun b => ¬(b.Direction = "UP" ∨ b.Direction = "DOWN")).length := by
  have h : bars ≠ [] := by
    intro hc
    rw [hc] at hmem
    cases hmem
  rw [run_analysis_eq m pdec bars h]
  have hup : ((enrichRows m bars).filter fun r => r.Direction = "UP").length
      = (bars.filter fun b => b.Direction = "UP").length :=
    dir_count_bridge m bars (fun s => s = "UP")
  have hdown : ((enrichRows m bars).filter fun r => r.Direction = "DOWN").length
      = (bars.filter fun b => b.Direction = "DOWN").length :=
    dir_count_bridge m bars (fun s => s = "DOWN")
  have hlen := enrichRows_length m bars
  have hpart := counts_partition bars
  have hstrict : sumCells (distTable (enrichRows m bars))
      < (bars.filter fun b => dayName b.Date ∈ days_order).length := by
    rw [sumCells_distTable]
    have hbars : ((enrichRows m bars).filter fun r =>
          r.Day_Name ∈ days_order ∧ r.Direction ∈ directions_order).length
        = (bars.filter fun b =>
            dayName b.Date ∈ days_order ∧ b.Direction ∈ directions_order).length :=
      pair_count_bridge m bars (fun c => decide (c.1 ∈ days_order ∧ c.2 ∈ directions_order))
    rw [hbars]
    refine length_filter_lt _ _ ?_ bars b0 hmem ?_ ?_
    · intro b hb
      rw [decide_eq_true_eq] at hb
      exact decide_eq_true hb.1
    · exact decide_eq_true hwd
    · refine decide_eq_false ?_
      intro hand
      exact hbad hand.2
  have hbe : b0 ∈ bars.filter fun b => ¬(b.Direction = "UP" ∨ b.Direction = "DOWN") := by
    refine List.mem_filter.mpr ⟨hmem, ?_⟩
    refine decide_eq_true ?_
    intro hor
    rcases hor with hu | hd
    · exact hbad (by rw [hu]; decide)
    · exact hbad (by rw [hd]; decide)
  refine ⟨dist_some m bars h, hstrict, ?_, ?_, ?_⟩
  · simp only [Option.map_some', Option.some.injEq, summaryOf, hlen]
  · simp only [Option.map_some', Option.some.injEq, summaryOf, hup, hdown, hlen]
    omega
  · have := List.ne_nil_of_mem hbe
    have := List.length_pos.mpr this
    omega

/-- Witness for C10 at the concrete one-row input `wMonBad`: the cells
sum to 0 while there is 1 weekday row, and the row is absorbed into
`break_even_days`. -/
theorem spec_C10_witness :
    bMonBad ∈ wMonBad ∧ dayName bMonBad.Date ∈ days_order ∧
    bMonBad.Direction ∉ directions_order ∧
    sumCells (distTable (enrichRows 10 wMonBad))
      < (wMonBad.filter fun b => dayName b.Date ∈ days_order).length ∧
    ((run_analysis 10 2 wMonBad).2.map fun s => s.break_even_days) = some 1 := by
  obtain ⟨h1, h2, h3, h4, h5⟩ := spec_C10_dropped_label 10 2 wMonBad bMonBad
    (by decide) (by decide) (by decide)
  refine ⟨by decide, by decide, by decide, h2, ?_⟩
  rw [h4]
  decide

end QuantMarketLab
